import Mathlib

/-!
Shallow embedding of the Mandelbrot viewer (`src/main.rs`) and proofs of the
specification's claims about it.

Modelling conventions:
* `f64` values are embedded as exact rationals (`ℚ`).  Every concrete constant
  appearing in the program and in the claims (`0.5`, `0.9`, `1.1`, `64.0`,
  integer coordinates, `1024`, `512`) is exactly representable, and the escape
  test `sqrt(x*x + y*y) > 64.0` is modelled by the equivalent squared
  comparison `x*x + y*y > 4096` (for a nonnegative argument and a correctly
  rounded IEEE square root, `sqrt s > 64` holds iff `s > 64^2`).
* the Rust `u16` field `iteration_number` and the `u8` return value are
  embedded as `ℕ`; the source's `(i*1).min(255) as u8` cast is lossless since
  `min` bounds the value by 255.
* the pixel buffer is a `List ℕ` of bytes; `par_chunks_exact_mut(4)` is
  embedded by a structural recursion consuming exactly four bytes per pixel
  and leaving any trailing remainder (fewer than four bytes) untouched, which
  is the documented semantics of `chunks_exact_mut`.  The per-chunk
  `copy_from_slice`, which panics when the two slices have different lengths,
  is embedded as an `Option`-valued operation returning `none` on mismatch,
  so that "fails fast / panics" is representable in the model.
-/

/-- Embeds `const WIDTH: u32 = 1024`. -/
def WIDTH : ℕ := 1024

/-- Embeds `const HEIGHT: u32 = 1024`. -/
def HEIGHT : ℕ := 1024

/-- Embeds `const HALF_WIDTH: u32 = WIDTH/2`. -/
def HALF_WIDTH : ℕ := WIDTH / 2

/-- Embeds `const HALF_HEIGHT: u32 = HEIGHT/2`. -/
def HALF_HEIGHT : ℕ := HEIGHT / 2

/-- Embeds `struct World` of `src/main.rs`. -/
structure World where
  iteration_number : ℕ
  scale : ℚ
  x_offset : ℚ
  y_offset : ℚ
  deriving DecidableEq

/-- Embeds `World::new`. -/
def World.new : World :=
  { iteration_number := 255
    scale := 1 / 2
    x_offset := 0
    y_offset := 0 }

/-- Embeds `fn square_complex(x: f64, y: f64) -> [f64; 2]`. -/
def square_complex (x y : ℚ) : ℚ × ℚ :=
  (x * x - y * y, 2 * x * y)

/-- Embeds the `for i in 0..self.iteration_number` loop body of
`World::calculate_mandelbrot`: `fuel` is the number of remaining loop
iterations, `z` the current value of the mutable variable `z`, and `i` the
current loop index.  The source's escape test `((x*x + y*y) as f64).sqrt() >
64.0` is the squared comparison `x*x + y*y > 4096`, and the escape return
value is `(i*1).min(255)` as in the source. -/
def calculateMandelbrotAux (c : ℚ × ℚ) : ℕ → ℚ × ℚ → ℕ → ℕ
  | 0, _, _ => 0
  | fuel + 1, z, i =>
    let x := z.1 + c.1
    let y := z.2 + c.2
    if 4096 < x * x + y * y then min (i * 1) 255
    else calculateMandelbrotAux c fuel (square_complex x y) (i + 1)

/-- Embeds `World::calculate_mandelbrot` with the iteration cap made an
explicit first argument (the source reads it from `self.iteration_number`):
start from `z = (0,0)` and loop index `0`. -/
def calculate_mandelbrot (iteration_number : ℕ) (c : ℚ × ℚ) : ℕ :=
  calculateMandelbrotAux c iteration_number (0, 0) 0

/-- Embeds the method call `self.calculate_mandelbrot(c)`, reading the cap
from `self.iteration_number`. -/
def World.calculate_mandelbrot (w : World) (c : ℚ × ℚ) : ℕ :=
  calculateMandelbrotAux c w.iteration_number (0, 0) 0

/-- Value of the loop variable `z` of `calculate_mandelbrot` at the start of
iteration `n`, for the trajectory that has not escaped before `n` (escape
returns immediately, so the trajectory up to the first escape is exactly this
sequence). -/
def zseq (c : ℚ × ℚ) : ℕ → ℚ × ℚ
  | 0 => (0, 0)
  | n + 1 => square_complex ((zseq c n).1 + c.1) ((zseq c n).2 + c.2)

/-- The escape condition of iteration `n`: writing `x = z.re + c.re` and
`y = z.im + c.im` for the `z` of iteration `n`, the test `sqrt(x*x+y*y) >
64.0` holds, i.e. `x*x + y*y > 4096`. -/
def escapeCond (c : ℚ × ℚ) (n : ℕ) : Prop :=
  4096 <
    ((zseq c n).1 + c.1) * ((zseq c n).1 + c.1) +
      ((zseq c n).2 + c.2) * ((zseq c n).2 + c.2)

instance escapeCond.instDecidable (c : ℚ × ℚ) (n : ℕ) :
    Decidable (escapeCond c n) :=
  inferInstanceAs (Decidable (4096 <
    ((zseq c n).1 + c.1) * ((zseq c n).1 + c.1) +
      ((zseq c n).2 + c.2) * ((zseq c n).2 + c.2)))

/-- Embeds the pixel-to-plane mapping of `World::draw` for chunk index `i`:
`x = i % WIDTH`, `y = i / WIDTH`, then
`relative_x = x/(HALF_WIDTH*scale) + x_offset - 1/scale` and symmetrically
for `y`. -/
def relative_coord (w : World) (i : ℕ) : ℚ × ℚ :=
  let x : ℕ := i % WIDTH
  let y : ℕ := i / WIDTH
  ((x : ℚ) / ((HALF_WIDTH : ℚ) * w.scale) + w.x_offset - 1 / w.scale,
   (y : ℚ) / ((HALF_HEIGHT : ℚ) * w.scale) + w.y_offset - 1 / w.scale)

/-- Embeds the RGBA value written by `World::draw` for chunk index `i`:
`let c = self.calculate_mandelbrot([relative_x, relative_y]);
 let rgba = [c, c, c, 255]`. -/
def rgba (w : World) (i : ℕ) : List ℕ :=
  let c := w.calculate_mandelbrot (relative_coord w i)
  [c, c, c, 255]

/-- Embeds `<[u8]>::copy_from_slice`, which panics (here: `none`) when the
destination and source have different lengths, and otherwise replaces the
destination's contents by the source's. -/
def copy_from_slice (dst src : List ℕ) : Option (List ℕ) :=
  if dst.length = src.length then some src else none

/-- Embeds the `frame.par_chunks_exact_mut(4).enumerate().for_each(...)`
spine of `World::draw`: chunk `i` (the next four bytes) is overwritten via
`copy_from_slice` with `rgba w i`, and a trailing remainder of fewer than
four bytes is left untouched, as `chunks_exact_mut` never yields it. -/
def drawAux (w : World) : ℕ → List ℕ → Option (List ℕ)
  | i, b0 :: b1 :: b2 :: b3 :: rest => do
    let pixel ← copy_from_slice [b0, b1, b2, b3] (rgba w i)
    let tail ← drawAux w (i + 1) rest
    pure (pixel ++ tail)
  | _, rest => some rest

/-- Embeds `World::draw` on a byte buffer of arbitrary length. -/
def World.draw (w : World) (frame : List ℕ) : Option (List ℕ) :=
  drawAux w 0 frame

/-- Pure description of the buffer produced by `World::draw` (the source
never hits the panicking branch of `copy_from_slice`; `drawAux_eq_some`
below proves the two agree). -/
def drawPure (w : World) : ℕ → List ℕ → List ℕ
  | i, _ :: _ :: _ :: _ :: rest => rgba w i ++ drawPure w (i + 1) rest
  | _, rest => rest

/-- Embeds the scroll-wheel update of the event loop:
`if scroll_diff != 0.0 { if scroll_diff < 0.0 { scale *= 0.9 } else
{ scale *= 1.1 } }`. -/
def apply_zoom (w : World) (scroll_diff : ℚ) : World :=
  if scroll_diff ≠ 0 then
    if scroll_diff < 0 then { w with scale := w.scale * (9 / 10) }
    else { w with scale := w.scale * (11 / 10) }
  else w

/-- Embeds the mouse-drag update of the event loop:
`x_offset -= dx / HALF_WIDTH / scale; y_offset -= dy / HALF_HEIGHT / scale`. -/
def apply_pan (w : World) (dx dy : ℚ) : World :=
  { w with
    x_offset := w.x_offset - dx / (HALF_WIDTH : ℚ) / w.scale,
    y_offset := w.y_offset - dy / (HALF_HEIGHT : ℚ) / w.scale }

/-! ### Properties of the escape-time loop -/

theorem zseq_succ (c : ℚ × ℚ) (n : ℕ) :
    zseq c (n + 1) = square_complex ((zseq c n).1 + c.1) ((zseq c n).2 + c.2) :=
  rfl

/-- If `n` is an escape index reachable with the remaining fuel and no earlier
index escapes, the loop returns `min n 255`. -/
theorem calcAux_first_escape (c : ℚ × ℚ) :
    ∀ fuel k n : ℕ, k ≤ n → n < k + fuel → escapeCond c n →
      (∀ j, j < n → ¬ escapeCond c j) →
      calculateMandelbrotAux c fuel (zseq c k) k = min n 255 := by
  intro fuel
  induction fuel with
  | zero => intro k n hkn hlt _ _; omega
  | succ fuel ih =>
    intro k n hkn hlt hesc hfirst
    rcases Nat.eq_or_lt_of_le hkn with rfl | hklt
    · have hesc' : 4096 <
          ((zseq c k).1 + c.1) * ((zseq c k).1 + c.1) +
            ((zseq c k).2 + c.2) * ((zseq c k).2 + c.2) := hesc
      simp only [calculateMandelbrotAux]
      rw [if_pos hesc']
      simp
    · have hk : ¬ escapeCond c k := hfirst k hklt
      have hk' : ¬ 4096 <
          ((zseq c k).1 + c.1) * ((zseq c k).1 + c.1) +
            ((zseq c k).2 + c.2) * ((zseq c k).2 + c.2) := hk
      simp only [calculateMandelbrotAux]
      rw [if_neg hk']
      have hz : square_complex ((zseq c k).1 + c.1) ((zseq c k).2 + c.2) =
          zseq c (k + 1) := rfl
      rw [hz]
      exact ih (k + 1) n hklt (by omega) hesc hfirst

/-- If no index reachable with the remaining fuel escapes, the loop returns 0. -/
theorem calcAux_no_escape (c : ℚ × ℚ) :
    ∀ fuel k : ℕ, (∀ n, k ≤ n → n < k + fuel → ¬ escapeCond c n) →
      calculateMandelbrotAux c fuel (zseq c k) k = 0 := by
  intro fuel
  induction fuel with
  | zero => intro k _; rfl
  | succ fuel ih =>
    intro k h
    have hk : ¬ escapeCond c k := h k (le_refl k) (by omega)
    have hk' : ¬ 4096 <
        ((zseq c k).1 + c.1) * ((zseq c k).1 + c.1) +
          ((zseq c k).2 + c.2) * ((zseq c k).2 + c.2) := hk
    simp only [calculateMandelbrotAux]
    rw [if_neg hk']
    have hz : square_complex ((zseq c k).1 + c.1) ((zseq c k).2 + c.2) =
        zseq c (k + 1) := rfl
    rw [hz]
    exact ih (k + 1) fun n h1 h2 => h n (by omega) (by omega)

/-- The returned intensity of an escaping point is the clamped first escape
index. -/
theorem calculate_mandelbrot_first_escape (cap n : ℕ) (c : ℚ × ℚ)
    (h1 : n < cap) (h2 : escapeCond c n)
    (h3 : ∀ j, j < n → ¬ escapeCond c j) :
    calculate_mandelbrot cap c = min n 255 :=
  calcAux_first_escape c cap 0 n (Nat.zero_le n) (by omega) h2 h3

/-- The returned intensity of a point that never escapes within the cap is 0. -/
theorem calculate_mandelbrot_no_escape (cap : ℕ) (c : ℚ × ℚ)
    (h : ∀ n, n < cap → ¬ escapeCond c n) :
    calculate_mandelbrot cap c = 0 :=
  calcAux_no_escape c cap 0 fun n _ h2 => h n (by omega)

/-- Every value the loop can return is 0 or a clamped escape index reachable
with the given fuel. -/
theorem calcAux_range (c : ℚ × ℚ) :
    ∀ (fuel : ℕ) (z : ℚ × ℚ) (i : ℕ),
      calculateMandelbrotAux c fuel z i = 0 ∨
        ∃ j, i ≤ j ∧ j < i + fuel ∧
          calculateMandelbrotAux c fuel z i = min j 255 := by
  intro fuel
  induction fuel with
  | zero => intro z i; left; rfl
  | succ fuel ih =>
    intro z i
    by_cases h : 4096 < (z.1 + c.1) * (z.1 + c.1) + (z.2 + c.2) * (z.2 + c.2)
    · right
      refine ⟨i, le_refl i, by omega, ?_⟩
      simp only [calculateMandelbrotAux]
      rw [if_pos h]
      simp
    · have hrec : calculateMandelbrotAux c (fuel + 1) z i =
          calculateMandelbrotAux c fuel
            (square_complex (z.1 + c.1) (z.2 + c.2)) (i + 1) := by
        simp only [calculateMandelbrotAux]
        rw [if_neg h]
      rw [hrec]
      rcases ih (square_complex (z.1 + c.1) (z.2 + c.2)) (i + 1) with h0 | ⟨j, hj1, hj2, hj3⟩
      · left; exact h0
      · right; exact ⟨j, by omega, by omega, hj3⟩

/-- The zero point is a fixed point of the iteration. -/
theorem zseq_zero : ∀ n, zseq (0, 0) n = (0, 0) := by
  intro n
  induction n with
  | zero => rfl
  | succ n ih => rw [zseq_succ, ih]; norm_num [square_complex]

/-- The zero point never satisfies the escape condition. -/
theorem escapeCond_zero (n : ℕ) : ¬ escapeCond (0, 0) n := by
  unfold escapeCond
  rw [zseq_zero n]
  norm_num

/-! ### Properties of the draw loop -/

theorem rgba_length (w : World) (i : ℕ) : (rgba w i).length = 4 := rfl

/-- The per-chunk `copy_from_slice` never hits its panicking branch: `draw`
computes `drawPure`. -/
theorem drawAux_eq_some (w : World) :
    ∀ (n i : ℕ) (l : List ℕ), l.length ≤ n →
      drawAux w i l = some (drawPure w i l) := by
  intro n
  induction n with
  | zero =>
    intro i l h
    rcases l with _ | ⟨b0, rest⟩
    · rfl
    · simp at h
  | succ n ih =>
    intro i l h
    rcases l with _ | ⟨b0, _ | ⟨b1, _ | ⟨b2, _ | ⟨b3, rest⟩⟩⟩⟩
    · rfl
    · rfl
    · rfl
    · rfl
    · have hr : rest.length ≤ n := by
        simp only [List.length_cons] at h
        omega
      simp [drawAux, drawPure, copy_from_slice, rgba, ih _ rest hr]

/-- The draw loop never fails. -/
theorem draw_eq_some (w : World) (frame : List ℕ) :
    World.draw w frame = some (drawPure w 0 frame) :=
  drawAux_eq_some w frame.length 0 frame (le_refl _)

/-- The draw loop preserves the buffer length. -/
theorem drawPure_length (w : World) :
    ∀ (n i : ℕ) (l : List ℕ), l.length ≤ n →
      (drawPure w i l).length = l.length := by
  intro n
  induction n with
  | zero =>
    intro i l h
    rcases l with _ | ⟨b0, rest⟩
    · rfl
    · simp at h
  | succ n ih =>
    intro i l h
    rcases l with _ | ⟨b0, _ | ⟨b1, _ | ⟨b2, _ | ⟨b3, rest⟩⟩⟩⟩
    · rfl
    · rfl
    · rfl
    · rfl
    · have hr : rest.length ≤ n := by
        simp only [List.length_cons] at h
        omega
      simp only [drawPure, List.length_append, List.length_cons, rgba_length,
        ih _ rest hr]
      omega

/-- Byte `j` of chunk `k` of the drawn buffer is byte `j` of the RGBA group
of pixel `i + k`, for every complete chunk `k`. -/
theorem drawPure_getElem (w : World) :
    ∀ (k i : ℕ) (l : List ℕ), 4 * k + 4 ≤ l.length → ∀ j, j < 4 →
      (drawPure w i l)[4 * k + j]? = (rgba w (i + k))[j]? := by
  intro k
  induction k with
  | zero =>
    intro i l hl j hj
    rcases l with _ | ⟨b0, _ | ⟨b1, _ | ⟨b2, _ | ⟨b3, rest⟩⟩⟩⟩ <;>
      simp only [List.length_nil, List.length_cons] at hl
    · omega
    · omega
    · omega
    · omega
    · simp only [drawPure]
      have hj' : 4 * 0 + j < (rgba w i).length := by
        rw [rgba_length]
        omega
      rw [List.getElem?_append_left hj']
      have h1 : 4 * 0 + j = j := by omega
      have h2 : i + 0 = i := by omega
      rw [h1, h2]
  | succ k ih =>
    intro i l hl j hj
    rcases l with _ | ⟨b0, _ | ⟨b1, _ | ⟨b2, _ | ⟨b3, rest⟩⟩⟩⟩ <;>
      simp only [List.length_nil, List.length_cons] at hl
    · omega
    · omega
    · omega
    · omega
    · simp only [drawPure]
      have hge : (rgba w i).length ≤ 4 * (k + 1) + j := by
        rw [rgba_length]
        omega
      rw [List.getElem?_append_right hge]
      have h1 : 4 * (k + 1) + j - (rgba w i).length = 4 * k + j := by
        rw [rgba_length]
        omega
      rw [h1]
      have hr : 4 * k + 4 ≤ rest.length := by omega
      have h2 : i + 1 + k = i + (k + 1) := by omega
      rw [ih (i + 1) rest hr j hj, h2]

/-- The trailing remainder of fewer than four bytes is left untouched by the
draw loop. -/
theorem drawPure_drop (w : World) :
    ∀ (n i : ℕ) (l : List ℕ), l.length ≤ n →
      (drawPure w i l).drop (4 * (l.length / 4)) = l.drop (4 * (l.length / 4)) := by
  intro n
  induction n with
  | zero =>
    intro i l h
    rcases l with _ | ⟨b0, rest⟩
    · rfl
    · simp at h
  | succ n ih =>
    intro i l h
    rcases l with _ | ⟨b0, _ | ⟨b1, _ | ⟨b2, _ | ⟨b3, rest⟩⟩⟩⟩
    · rfl
    · rfl
    · rfl
    · rfl
    · have hr : rest.length ≤ n := by
        simp only [List.length_cons] at h
        omega
      have hlen : (b0 :: b1 :: b2 :: b3 :: rest).length = rest.length + 4 := by
        simp only [List.length_cons]
      have hq : 4 * ((rest.length + 4) / 4) = 4 * (rest.length / 4) + 4 := by
        omega
      simp only [drawPure, hlen, hq]
      have hdl : ∀ m : ℕ, (rgba w i ++ drawPure w (i + 1) rest).drop (m + 4) =
          (drawPure w (i + 1) rest).drop m := by
        intro m
        rw [List.drop_append_eq_append_drop]
        simp [rgba_length, Nat.add_comm m 4]
      have hdr : ∀ m : ℕ, (b0 :: b1 :: b2 :: b3 :: rest).drop (m + 4) =
          rest.drop m := by
        intro m
        have : m + 4 = m + 1 + 1 + 1 + 1 := by omega
        rw [this]
        simp [List.drop_succ_cons]
      rw [hdl, hdr]
      exact ih (i + 1) rest hr

/-! ### Concrete evaluations -/

theorem world_calculate_mandelbrot_eq (w : World) (c : ℚ × ℚ) :
    w.calculate_mandelbrot c = calculate_mandelbrot w.iteration_number c :=
  rfl

theorem escapeCond_two_two : escapeCond (2, 2) 2 := by
  norm_num [escapeCond, zseq, square_complex]

theorem not_escapeCond_two_two_early : ∀ j, j < 2 → ¬ escapeCond (2, 2) j := by
  intro j hj
  interval_cases j <;> norm_num [escapeCond, zseq, square_complex]

/-- The point (2,2) first escapes at iteration index 2 and the loop returns 2. -/
theorem calculate_mandelbrot_two_two : calculate_mandelbrot 255 (2, 2) = 2 := by
  rw [calculate_mandelbrot_first_escape 255 2 (2, 2) (by omega)
    escapeCond_two_two not_escapeCond_two_two_early]
  decide

theorem escapeCond_hundred : escapeCond (100, 0) 0 := by
  norm_num [escapeCond, zseq]

/-- The point (100,0) escapes at index 0, so the loop returns 0. -/
theorem calculate_mandelbrot_hundred : calculate_mandelbrot 255 (100, 0) = 0 := by
  rw [calculate_mandelbrot_first_escape 255 0 (100, 0) (by omega)
    escapeCond_hundred (fun j hj => absurd hj (Nat.not_lt_zero j))]
  decide

/-- The origin never escapes, so the loop returns 0 for every cap. -/
theorem calculate_mandelbrot_origin (cap : ℕ) :
    calculate_mandelbrot cap (0, 0) = 0 :=
  calculate_mandelbrot_no_escape cap (0, 0) fun n _ => escapeCond_zero n

/-- Chunk index 0 maps to the plane point (-2,-2) at the default viewport. -/
theorem relative_coord_new_zero : relative_coord World.new 0 = (-2, -2) := by
  norm_num [relative_coord, World.new, WIDTH, HEIGHT, HALF_WIDTH, HALF_HEIGHT]

theorem escapeCond_corner : escapeCond (-2, -2) 3 := by
  norm_num [escapeCond, zseq, square_complex]

theorem not_escapeCond_corner_early : ∀ j, j < 3 → ¬ escapeCond (-2, -2) j := by
  intro j hj
  interval_cases j <;> norm_num [escapeCond, zseq, square_complex]

/-- The plane point (-2,-2) of pixel 0 first escapes at index 3. -/
theorem calculate_mandelbrot_corner : calculate_mandelbrot 255 (-2, -2) = 3 := by
  rw [calculate_mandelbrot_first_escape 255 3 (-2, -2) (by omega)
    escapeCond_corner not_escapeCond_corner_early]
  decide

/-- The RGBA group of pixel 0 at the default viewport. -/
theorem rgba_new_zero : rgba World.new 0 = [3, 3, 3, 255] := by
  rw [rgba]
  rw [world_calculate_mandelbrot_eq, relative_coord_new_zero]
  rw [show World.new.iteration_number = 255 from rfl]
  rw [calculate_mandelbrot_corner]

/-- Chunk index 524800 is the center pixel (512,512); it maps to the plane
origin at the default viewport. -/
theorem relative_coord_new_center : relative_coord World.new 524800 = (0, 0) := by
  norm_num [relative_coord, World.new, WIDTH, HEIGHT, HALF_WIDTH, HALF_HEIGHT]

/-- The RGBA group of the center pixel at the default viewport. -/
theorem rgba_new_center : rgba World.new 524800 = [0, 0, 0, 255] := by
  rw [rgba]
  rw [world_calculate_mandelbrot_eq, relative_coord_new_center]
  rw [show World.new.iteration_number = 255 from rfl]
  rw [calculate_mandelbrot_origin]

/-! ### Properties of the viewport updates -/

/-- A zoom event multiplies the scale by 9/10 or 11/10 or leaves it alone,
so it preserves strict positivity. -/
theorem apply_zoom_scale_pos (w : World) (d : ℚ) (h : 0 < w.scale) :
    0 < (apply_zoom w d).scale := by
  unfold apply_zoom
  by_cases h1 : d ≠ 0
  · by_cases h2 : d < 0
    · rw [if_pos h1, if_pos h2]
      positivity
    · rw [if_pos h1, if_neg h2]
      positivity
  · rw [if_neg h1]
    exact h

/-- Positivity of the scale is preserved by any sequence of zoom events. -/
theorem foldl_apply_zoom_scale_pos :
    ∀ (ds : List ℚ) (w : World), 0 < w.scale →
      0 < (List.foldl apply_zoom w ds).scale := by
  intro ds
  induction ds with
  | nil => intro w h; exact h
  | cons d ds ih =>
    intro w h
    exact ih (apply_zoom w d) (apply_zoom_scale_pos w d h)

/-- Every returned intensity under a cap of at most 255 is at most 254. -/
theorem calculate_mandelbrot_le_254 (c : ℚ × ℚ) (cap : ℕ) (hcap : cap ≤ 255) :
    calculate_mandelbrot cap c ≤ 254 := by
  show calculateMandelbrotAux c cap (0, 0) 0 ≤ 254
  rcases calcAux_range c cap (0, 0) 0 with h | ⟨j, hj1, hj2, hj3⟩
  · omega
  · omega

/-! ### Claims -/

/-- C1: the escape-time computation starts from z=(0,0), iterates
x'=z.re+c.re, y'=z.im+c.im and returns, for every escaping point, the
0-based index of the first iteration at which sqrt(x'^2+y'^2) > 64.0,
clamped to [0,255], updating z to the complex square of (x',y') on
non-escape; in particular c=(2,2) escapes at index 2, the first index at
which the condition holds, and the recorded value is 2. -/
theorem C1_escape_first_index :
    (∀ (c : ℚ × ℚ) (cap n : ℕ), n < cap → escapeCond c n →
        (∀ j, j < n → ¬ escapeCond c j) →
        calculate_mandelbrot cap c = min n 255) ∧
      calculate_mandelbrot 255 (2, 2) = 2 ∧ escapeCond (2, 2) 2 ∧
        ∀ j, j < 2 → ¬ escapeCond (2, 2) j :=
  ⟨fun c cap n h1 h2 h3 => calculate_mandelbrot_first_escape cap n c h1 h2 h3,
    calculate_mandelbrot_two_two, escapeCond_two_two,
    not_escapeCond_two_two_early⟩

theorem C1_escape_first_index_witness :
    calculate_mandelbrot 255 (2, 2) = min 2 255 :=
  C1_escape_first_index.1 (2, 2) 255 2 (by omega) escapeCond_two_two
    not_escapeCond_two_two_early

/-- C2: rendering a 1024×1024 buffer at the default viewport maps the exact
center pixel (x=512, y=512), i.e. chunk 524800 and bytes 2099200..2099203,
to plane coordinate (0,0), which never escapes, so the written bytes are
(0, 0, 0, 255). -/
theorem C2_default_center_pixel :
    ∀ frame : List ℕ, frame.length = 4194304 →
      relative_coord World.new 524800 = (0, 0) ∧
      ∃ out, World.draw World.new frame = some out ∧
        out[2099200]? = some 0 ∧ out[2099201]? = some 0 ∧
        out[2099202]? = some 0 ∧ out[2099203]? = some 255 := by
  intro frame hlen
  refine ⟨relative_coord_new_center,
    drawPure World.new 0 frame, draw_eq_some World.new frame, ?_, ?_, ?_, ?_⟩
  · have h := drawPure_getElem World.new 524800 0 frame (by omega) 0 (by omega)
    norm_num at h
    rw [rgba_new_center] at h
    simpa using h
  · have h := drawPure_getElem World.new 524800 0 frame (by omega) 1 (by omega)
    norm_num at h
    rw [rgba_new_center] at h
    simpa using h
  · have h := drawPure_getElem World.new 524800 0 frame (by omega) 2 (by omega)
    norm_num at h
    rw [rgba_new_center] at h
    simpa using h
  · have h := drawPure_getElem World.new 524800 0 frame (by omega) 3 (by omega)
    norm_num at h
    rw [rgba_new_center] at h
    simpa using h

theorem C2_default_center_pixel_witness :
    relative_coord World.new 524800 = (0, 0) ∧
      ∃ out, World.draw World.new (List.replicate 4194304 0) = some out ∧
        out[2099200]? = some 0 ∧ out[2099201]? = some 0 ∧
        out[2099202]? = some 0 ∧ out[2099203]? = some 255 :=
  C2_default_center_pixel (List.replicate 4194304 0) (by rw [List.length_replicate])

/-- C3: raising the iteration cap never changes the recorded value of a
point that already escaped under the smaller cap (in particular it never
decreases it and never reclassifies the point as in the set), and a point
in the set at the larger cap is in the set at the smaller cap (so raising
the cap can only convert in-set points into escaping ones). -/
theorem C3_cap_monotonic_refinement :
    ∀ (c : ℚ × ℚ) (cap1 cap2 : ℕ), cap1 ≤ cap2 →
      ((∃ i, i < cap1 ∧ escapeCond c i) →
        (∃ i, i < cap2 ∧ escapeCond c i) ∧
          calculate_mandelbrot cap2 c = calculate_mandelbrot cap1 c) ∧
      ((∀ i, i < cap2 → ¬ escapeCond c i) →
        ∀ i, i < cap1 → ¬ escapeCond c i) := by
  intro c cap1 cap2 hle
  constructor
  · intro h
    have hex : ∃ i, escapeCond c i := by
      rcases h with ⟨i, _, he⟩
      exact ⟨i, he⟩
    have hesc : escapeCond c (Nat.find hex) := Nat.find_spec hex
    have hfirst : ∀ j, j < Nat.find hex → ¬ escapeCond c j :=
      fun j hj => Nat.find_min hex hj
    have hlt1 : Nat.find hex < cap1 := by
      rcases h with ⟨i, hi, he⟩
      exact lt_of_le_of_lt (Nat.find_min' hex he) hi
    refine ⟨⟨Nat.find hex, by omega, hesc⟩, ?_⟩
    rw [calculate_mandelbrot_first_escape cap2 (Nat.find hex) c (by omega)
        hesc hfirst,
      calculate_mandelbrot_first_escape cap1 (Nat.find hex) c hlt1
        hesc hfirst]
  · intro h i hi
    exact h i (by omega)

theorem C3_cap_monotonic_refinement_witness :
    (∃ i, i < 10 ∧ escapeCond (2, 2) i) ∧
      calculate_mandelbrot 10 (2, 2) = calculate_mandelbrot 3 (2, 2) :=
  (C3_cap_monotonic_refinement (2, 2) 3 10 (by omega)).1
    ⟨2, by omega, escapeCond_two_two⟩

/-- C4 (counterexample): on the mis-sized 5-byte buffer [0,0,0,0,0] the
draw operation does not fail fast: it returns normally, overwriting the one
complete 4-byte chunk and leaving the trailing byte untouched. -/
theorem C4_mis_sized_buffer_not_rejected :
    [(0 : ℕ), 0, 0, 0, 0].length ≠ WIDTH * HEIGHT * 4 ∧
      World.draw World.new [0, 0, 0, 0, 0] = some [3, 3, 3, 255, 0] := by
  constructor
  · decide
  · rw [draw_eq_some]
    rw [show drawPure World.new 0 [0, 0, 0, 0, 0] =
        rgba World.new 0 ++ drawPure World.new 1 [0] from rfl]
    rw [show drawPure World.new 1 [0] = [0] from rfl]
    rw [rgba_new_zero]
    rfl

/-- C4 (amended): the draw operation never fails on a mis-sized buffer;
for every buffer it returns normally, preserving the length, overwriting
each complete 4-byte chunk and leaving the remainder bytes unchanged. -/
theorem C4_draw_silently_tolerates :
    ∀ (w : World) (frame : List ℕ),
      ∃ out, World.draw w frame = some out ∧ out.length = frame.length ∧
        out.drop (4 * (frame.length / 4)) =
          frame.drop (4 * (frame.length / 4)) :=
  fun w frame =>
    ⟨drawPure w 0 frame, draw_eq_some w frame,
      drawPure_length w frame.length 0 frame (le_refl _),
      drawPure_drop w frame.length 0 frame (le_refl _)⟩

/-- C5: applying the pan update with a zero pixel drag delta leaves both
offsets (and the whole state) unchanged, for every scale and offset. -/
theorem C5_pan_zero_delta (w : World) : apply_pan w 0 0 = w := by
  cases w
  simp [apply_pan]

/-- C6: a zoom-out event followed by a zoom-in event from scale 0.5 does
not return the scale to 0.5: the result is the drift value
0.5*0.9*1.1 = 0.495, so zoom is not perfectly invertible. -/
theorem C6_zoom_roundtrip_drift :
    (apply_zoom (apply_zoom World.new (-1)) 1).scale =
        (1 / 2 : ℚ) * (9 / 10) * (11 / 10) ∧
      (apply_zoom (apply_zoom World.new (-1)) 1).scale = 99 / 200 ∧
      (apply_zoom (apply_zoom World.new (-1)) 1).scale ≠ World.new.scale := by
  refine ⟨?_, ?_, ?_⟩ <;> norm_num [apply_zoom, World.new]

/-- C7: starting from the initial scale 0.5, after every finite sequence of
zoom events the scale remains strictly positive. -/
theorem C7_scale_strictly_positive (ds : List ℚ) :
    0 < (List.foldl apply_zoom World.new ds).scale :=
  foldl_apply_zoom_scale_pos ds World.new (by norm_num [World.new])

/-- C8: for every complete 4-byte chunk of the buffer, draw writes exactly
the RGBA group (v, v, v, 255) where v is the pixel's computed intensity:
red, green and blue are equal and alpha is always 255. -/
theorem C8_rgba_grayscale_opaque :
    ∀ (w : World) (frame : List ℕ) (k : ℕ), 4 * k + 4 ≤ frame.length →
      ∃ out, World.draw w frame = some out ∧
        ∃ v, v = w.calculate_mandelbrot (relative_coord w k) ∧
          out[4 * k]? = some v ∧ out[4 * k + 1]? = some v ∧
          out[4 * k + 2]? = some v ∧ out[4 * k + 3]? = some 255 := by
  intro w frame k hk
  refine ⟨drawPure w 0 frame, draw_eq_some w frame,
    w.calculate_mandelbrot (relative_coord w k), rfl, ?_, ?_, ?_, ?_⟩
  · have h := drawPure_getElem w k 0 frame hk 0 (by omega)
    simp only [Nat.add_zero, Nat.zero_add] at h
    rw [h]
    simp [rgba]
  · have h := drawPure_getElem w k 0 frame hk 1 (by omega)
    simp only [Nat.zero_add] at h
    rw [h]
    simp [rgba]
  · have h := drawPure_getElem w k 0 frame hk 2 (by omega)
    simp only [Nat.zero_add] at h
    rw [h]
    simp [rgba]
  · have h := drawPure_getElem w k 0 frame hk 3 (by omega)
    simp only [Nat.zero_add] at h
    rw [h]
    simp [rgba]

theorem C8_rgba_grayscale_opaque_witness :
    ∃ out, World.draw World.new [0, 0, 0, 0] = some out ∧
      ∃ v, v = World.new.calculate_mandelbrot (relative_coord World.new 0) ∧
        out[4 * 0]? = some v ∧ out[4 * 0 + 1]? = some v ∧
        out[4 * 0 + 2]? = some v ∧ out[4 * 0 + 3]? = some 255 :=
  C8_rgba_grayscale_opaque World.new [0, 0, 0, 0] 0 (by decide)

/-- C9: a point whose very first iterate already exceeds the escape radius,
such as c=(100,0), yields intensity 0 (the 0-based index of iteration 0),
the same value as an in-set point such as c=(0,0): such far-outside points
are indistinguishable in the output from in-set points. -/
theorem C9_far_points_indistinguishable :
    (∀ (c : ℚ × ℚ) (cap : ℕ), 0 < cap → escapeCond c 0 →
        calculate_mandelbrot cap c = 0) ∧
      escapeCond (100, 0) 0 ∧ calculate_mandelbrot 255 (100, 0) = 0 ∧
        calculate_mandelbrot 255 (0, 0) = 0 := by
  refine ⟨fun c cap h1 h2 => ?_, escapeCond_hundred,
    calculate_mandelbrot_hundred, calculate_mandelbrot_origin 255⟩
  have h := calculate_mandelbrot_first_escape cap 0 c h1 h2
    (fun j hj => absurd hj (Nat.not_lt_zero j))
  rw [h]
  decide

theorem C9_far_points_indistinguishable_witness :
    calculate_mandelbrot 10 (100, 0) = 0 :=
  C9_far_points_indistinguishable.1 (100, 0) 10 (by omega) escapeCond_hundred

/-- C10: with the constructed cap 255 of World::new the computation never
returns 255: under any cap of at most 255 every returned intensity is at
most 254 (escape indices are below the cap and non-escaping points return
0), so the min-255 clamp can only matter for caps above 255. -/
theorem C10_intensity_range :
    World.new.iteration_number = 255 ∧
      (∀ (c : ℚ × ℚ) (cap : ℕ), cap ≤ 255 →
        calculate_mandelbrot cap c ≤ 254) ∧
      ∀ c : ℚ × ℚ, World.calculate_mandelbrot World.new c ≠ 255 := by
  refine ⟨rfl, fun c cap hcap => calculate_mandelbrot_le_254 c cap hcap,
    fun c => ?_⟩
  have h : calculate_mandelbrot 255 c ≤ 254 :=
    calculate_mandelbrot_le_254 c 255 (le_refl _)
  have he : World.calculate_mandelbrot World.new c =
      calculate_mandelbrot 255 c := rfl
  omega

theorem C10_intensity_range_witness :
    calculate_mandelbrot 255 (2, 2) ≤ 254 :=
  C10_intensity_range.2.1 (2, 2) 255 (le_refl 255)
